import Mathlib

/-!
Verification of the gene-code repository: a shallow embedding of its stack
machine (`lang.rs`), its program-gene fitness evaluator (`prog_gene.rs`) and
its generic evolution engine (`gene.rs`), together with theorems settling the
specification claims.

Modelling conventions:
* Rust `i32` values are embedded as `Int`; `+`, `-`, `*` use the release-mode
  wrapping semantics (`wrap32`), and `/` uses Rust's toward-zero division
  `Int.tdiv`.  Rust division overflow (`i32::MIN / -1`) aborts in every build
  profile, so it is embedded as a fault (`none`).
* Rust `f32` fitness values are embedded exactly as `Rat`.
* Fallible operations (indexing, faulting commands) return `Option`.
* The random source is an abstract capability (`Oracle`), threaded through
  every call exactly as the Rust code threads `&mut R`.
-/

set_option maxRecDepth 100000

namespace GeneCode

/-! ## The stack machine (`lang.rs`) -/

-- `i32::MIN`, the one dividend whose division by `-1` overflows.
def intMin : Int := -(2 ^ 31)

-- Rust release-mode wrapping of an `i32` arithmetic result.
def wrap32 (x : Int) : Int := (x + 2 ^ 31) % 2 ^ 32 - 2 ^ 31

-- A builtin command to run on the stack (`enum Command`).
inductive Command where
  | Add
  | Sub
  | Mult
  | Div
  | Dup
  | Swap
deriving DecidableEq, Repr

-- Either a piece of data or a command (`enum Prog`).
inductive Prog where
  | D (d : Int)
  | C (c : Command)
deriving DecidableEq, Repr

-- A stack to run programs on, and all other state used by the interpreter.
-- Both `Vec`s grow/shrink at one end; they are embedded as lists whose head
-- is that end (the top).
structure Stack where
  data : List Int
  commands : List Prog
deriving DecidableEq, Repr

-- `Stack::new`
def Stack.new : Stack := { data := [], commands := [] }

-- `Stack::push`
def Stack.push (s : Stack) (d : Int) : Stack := { s with data := d :: s.data }

-- `Stack::pop`: pop data off the stack, or get the default value 0 from an
-- empty stack.
def Stack.pop (s : Stack) : Int × Stack :=
  match s.data with
  | [] => (0, s)
  | d :: rest => (d, { s with data := rest })

-- `Stack::run`: run a single command.  `none` embeds a Rust panic: the only
-- reachable one is division overflow (`intMin / -1`); the `_ => panic!()`
-- arm of the source match is unreachable.
def Stack.run (s : Stack) (c : Command) : Option Stack :=
  match c with
  | .Add | .Sub | .Mult | .Div =>
    let (b, s) := s.pop
    let (a, s) := s.pop
    match c with
    | .Add => some (s.push (wrap32 (a + b)))
    | .Sub => some (s.push (wrap32 (a - b)))
    | .Mult => some (s.push (wrap32 (a * b)))
    | .Div =>
      if b ≠ 0 then
        if a = intMin ∧ b = -1 then none else some (s.push (Int.tdiv a b))
      else some (s.push 0)
    | _ => none
  | .Dup =>
    let (a, s) := s.pop
    some ((s.push a).push a)
  | .Swap =>
    let (b, s) := s.pop
    let (a, s) := s.pop
    some ((s.push b).push a)

-- `Stack::queue_program`: copy the program onto the top of the command
-- stack, iterating it in reverse, so it is consumed left-to-right.
def Stack.queueProgram (s : Stack) (program : List Prog) : Stack :=
  { s with commands := program.reverse.foldl (fun cs p => p :: cs) s.commands }

-- `Stack::run_next`: run the next command on the stack; does nothing if the
-- command stack is empty.
def Stack.runNext (s : Stack) : Option Stack :=
  match s.commands with
  | [] => some s
  | p :: rest =>
    let s := { s with commands := rest }
    match p with
    | .D d => some (s.push d)
    | .C c => s.run c

-- `Stack::run_until`: run at most `max` steps or until the queue empties;
-- returns the steps taken.
def Stack.runUntil (s : Stack) (max : Nat) : Option (Nat × Stack) :=
  match max with
  | 0 => some (0, s)
  | m + 1 =>
    match s.commands with
    | [] => some (0, s)
    | _ :: _ =>
      match s.runNext with
      | none => none
      | some s1 => (s1.runUntil m).map fun p => (p.1 + 1, p.2)

-- `Stack::run_all`: run until the command stack is empty; returns the number
-- of steps taken.  The source loop `while !commands.is_empty()` has no
-- syntactic bound; each iteration consumes exactly one queued item
-- (`run_commands`/`runNext_commands` below), so the loop is the `run_until`
-- loop capped at the initial queue length.
def Stack.runAll (s : Stack) : Option (Nat × Stack) :=
  s.runUntil s.commands.length

/-! ## Program genes and the fitness evaluator (`prog_gene.rs`) -/

-- `pub struct ProgramGene(pub Vec<lang::Prog>)`
structure ProgramGene where
  progs : List Prog
deriving DecidableEq, Repr

-- The 10 × 10 grid of test inputs of `fitness`:
-- `for a in 0 .. 10 { for b in 0 .. 10 { ... } }`, flattened in loop order.
def testGrid : List (Int × Int) :=
  (List.range 10).flatMap fun a => (List.range 10).map fun b => ((a : Int), b)

-- One fitness trial: fresh stack, push `a` then `b`, queue the program, run
-- at most 10 steps, pop, compare with the reference function.  `none` embeds
-- a panic during execution.
def fitnessTrial (f : Int → Int → Int) (g : ProgramGene) (ab : Int × Int) :
    Option Bool :=
  let s := Stack.new
  let s := s.push ab.1
  let s := s.push ab.2
  let s := s.queueProgram g.progs
  match s.runUntil 10 with
  | none => none
  | some (_, s1) => some ((s1.pop).1 == f ab.1 ab.2)

-- `prog_gene::fitness`: counts successful trials over the grid, then scores
-- `0.99 * correctness + 0.01 * shortness` (f32 arithmetic embedded in ℚ).
def fitness (f : Int → Int → Int) (g : ProgramGene) : Option Rat :=
  match testGrid.foldlM
      (fun (acc : Nat × Nat) ab =>
        (fitnessTrial f g ab).map fun ok =>
          (acc.1 + 1, acc.2 + if ok then 1 else 0))
      (0, 0) with
  | none => none
  | some ts =>
    let correctness : Rat := (ts.2 : Rat) / (ts.1 : Rat)
    let shortness : Rat := 1 - ((g.progs.length : Rat) / 100)
    some (99 / 100 * correctness + 1 / 100 * shortness)

-- Spec-side restatement of "correct_count": the number of grid inputs on
-- which the program's output equals the reference function.
def correctCount (f : Int → Int → Int) (g : ProgramGene) : Nat :=
  (testGrid.filter fun ab => fitnessTrial f g ab == some true).length

/-! ## The evolution engine (`gene.rs`) -/

-- Everything `Pool::new`/`Pool::evolve` obtain from outside: the abstract
-- random capability `R: Rng` (`gen_range` on f32 and on usize) and the
-- `Gene` trait operations of the gene type `T`, each threading the random
-- state exactly as the Rust code threads `&mut R`.
structure Oracle (G R : Type) where
  genRangeQ : Rat → Rat → R → Rat × R
  genRangeN : Nat → Nat → R → Nat × R
  generate : R → G × R
  mutate : G → R → G × R
  cross : G → G → R → G × R

-- `pub struct Pool<T, F>`: genes with fitness, a back buffer, and the
-- fitness function.
structure Pool (G : Type) where
  genes : List (G × Rat)
  back_genes : List (G × Rat)
  fitness : G → Rat

variable {G R : Type}

-- `self.back_genes[i].1` (fitness at index `i`; the source only ever indexes
-- in bounds, so the default is never read).
def fitAt (l : List (G × Rat)) (i : Nat) : Rat :=
  ((l.get? i).map Prod.snd).getD 0

-- The inner roulette walk of the selection loop:
-- `let mut i = 0; f -= back_genes[i].1;`
-- `while f > 0.0 { i = (i + 1) % back_genes.len(); f -= back_genes[i].1 }`.
-- The source loop has no syntactic bound, so `fuel` bounds it here; `none`
-- means the walk did not stop within `fuel` further iterations (with all
-- remaining fitness zero and `f > 0` the source loop never stops).
def rouletteWalk (back : List (G × Rat)) (f : Rat) (i : Nat) (fuel : Nat) :
    Option Nat :=
  if f > 0 then
    match fuel with
    | 0 => none
    | fuel + 1 =>
      let i := (i + 1) % back.length
      rouletteWalk back (f - fitAt back i) i fuel
  else some i

-- The selection loop of `evolve`:
-- `while self.genes.len() < len / 4 && !self.back_genes.is_empty()`.
-- `k` is the remaining quarter capacity, `len / 4 - genes.len()`.
def selectLoop (o : Oracle G R) (wfuel : Nat) :
    Nat → List (G × Rat) → List (G × Rat) → Rat → R →
      Option (List (G × Rat) × List (G × Rat) × Rat × R)
  | 0, genes, back, total, rng => some (genes, back, total, rng)
  | k + 1, genes, back, total, rng =>
    if back.isEmpty then some (genes, back, total, rng)
    else
      let fr := o.genRangeQ 0 total rng
      match rouletteWalk back (fr.1 - fitAt back 0) 0 wfuel with
      | none => none
      | some i =>
        match back.get? i with
        | none => none
        | some pr =>
          selectLoop o wfuel k (genes ++ [pr]) (back.eraseIdx i)
            (total - pr.2) fr.2

-- The crossover loop of `evolve`: `for i in 0 .. num_selected`, drawing the
-- partner index from `0 .. len/4` and reading both parents out of the
-- growing `genes` vector; `k` counts the remaining iterations
-- (`i + k = num_selected`), and `none` embeds an out-of-bounds panic.
def crossLoop (o : Oracle G R) (F : G → Rat) (quarter : Nat) :
    Nat → Nat → List (G × Rat) → R → Option (List (G × Rat) × R)
  | _, 0, genes, rng => some (genes, rng)
  | i, k + 1, genes, rng =>
    let wr := o.genRangeN 0 quarter rng
    match genes.get? i, genes.get? wr.1 with
    | some gi, some gw =>
      let cr := o.cross gi.1 gw.1 wr.2
      crossLoop o F quarter (i + 1) k (genes ++ [(cr.1, F cr.1)]) cr.2
    | _, _ => none

-- The mutation loop of `evolve`: `for i in 0 .. num_selected`.
def mutLoop (o : Oracle G R) (F : G → Rat) :
    Nat → Nat → List (G × Rat) → R → Option (List (G × Rat) × R)
  | _, 0, genes, rng => some (genes, rng)
  | i, k + 1, genes, rng =>
    match genes.get? i with
    | some gi =>
      let mr := o.mutate gi.1 rng
      mutLoop o F (i + 1) k (genes ++ [(mr.1, F mr.1)]) mr.2
    | none => none

-- The replenishment loop of `evolve`: `while self.genes.len() < len`,
-- with `k = len - genes.len()` generated-and-scored genes still to append.
def replenishLoop (o : Oracle G R) (F : G → Rat) :
    Nat → List (G × Rat) → R → List (G × Rat) × R
  | 0, genes, rng => (genes, rng)
  | k + 1, genes, rng =>
    let gr := o.generate rng
    replenishLoop o F k (genes ++ [(gr.1, F gr.1)]) gr.2

-- The fill loop of `Pool::new`: `while pool.genes.len() < size`, generating
-- and immediately scoring each gene (`k = size - genes.len()`).
def newLoop (o : Oracle G R) (F : G → Rat) :
    Nat → List (G × Rat) → R → List (G × Rat) × R
  | 0, genes, rng => (genes, rng)
  | k + 1, genes, rng =>
    let gr := o.generate rng
    newLoop o F k (genes ++ [(gr.1, F gr.1)]) gr.2

-- `Pool::new`
def Pool.new (size : Nat) (F : G → Rat) (o : Oracle G R) (rng : R) :
    Pool G × R :=
  let gr := newLoop o F size [] rng
  ({ genes := gr.1, back_genes := [], fitness := F }, gr.2)

-- `Pool::evolve`: swap into the back buffer, sum the total fitness, then
-- selection, crossover, mutation and replenishment, in source order.
def Pool.evolve (o : Oracle G R) (wfuel : Nat) (p : Pool G) (rng : R) :
    Option (Pool G × R) :=
  let len := p.genes.length
  let back := p.genes
  let total := back.foldl (fun acc pr => acc + pr.2) 0
  match selectLoop o wfuel (len / 4) [] back total rng with
  | none => none
  | some (genes1, back1, _, rng1) =>
    let numSelected := genes1.length
    match crossLoop o p.fitness (len / 4) 0 numSelected genes1 rng1 with
    | none => none
    | some (genes2, rng2) =>
      match mutLoop o p.fitness 0 numSelected genes2 rng2 with
      | none => none
      | some (genes3, rng3) =>
        let gr := replenishLoop o p.fitness (len - genes3.length) genes3 rng3
        some ({ genes := gr.1, back_genes := back1, fitness := p.fitness },
          gr.2)

-- The freshness invariant: every stored fitness is the fitness function
-- applied to its gene.
def freshFitness (F : G → Rat) (l : List (G × Rat)) : Prop :=
  ∀ pr ∈ l, pr.2 = F pr.1


/-! ## Remaining definitions for the claims (spec-side and concrete) -/

-- Spec-side description of the crossover phase (spec §4.2 step 3): for
-- each of the `num_selected` selected individuals, pick a uniformly random
-- partner from among the first quarter-sized slice `sel` of the selected
-- genes, call `cross` on the pair, evaluate fitness of the result, and
-- append it.  Children are returned in order; the partner is read from
-- `sel` itself, unlike the source, which reads the growing genes vector.
def crossPhaseSpec (o : Oracle G R) (F : G → Rat) (q : Nat)
    (sel : List (G × Rat)) : Nat → Nat → R → Option (List (G × Rat) × R)
  | _, 0, rng => some ([], rng)
  | i, k + 1, rng =>
    let wr := o.genRangeN 0 q rng
    match sel.get? i, sel.get? wr.1 with
    | some gi, some gw =>
      let cr := o.cross gi.1 gw.1 wr.2
      match crossPhaseSpec o F q sel (i + 1) k cr.2 with
      | some rest => some ((cr.1, F cr.1) :: rest.1, rest.2)
      | none => none
    | _, _ => none

/-! ### Concrete instances used to witness the theorems -/

-- A deterministic sample oracle over ℕ genes with a unit random state; its
-- range draws return the lower bound, which is always in range.
def o1 : Oracle Nat Unit where
  genRangeQ := fun lo _ _ => (lo, ())
  genRangeN := fun lo _ _ => (lo, ())
  generate := fun _ => (5, ())
  mutate := fun g _ => (g + 1, ())
  cross := fun a b _ => (a + b, ())

def F1 : Nat → Rat := fun _ => 1

def back4 : List (Nat × Rat) := [(1, 1), (2, 1), (3, 1), (4, 1)]

-- A pool of four individuals, every stored fitness fresh for `F1`.
def pool1 : Pool Nat := { genes := back4, back_genes := [], fitness := F1 }

-- What one generation of `pool1` under `o1` produces.
def pool1Next : Pool Nat :=
  { genes := [(1, 1), (2, 1), (2, 1), (5, 1)]
    back_genes := [(2, 1), (3, 1), (4, 1)], fitness := F1 }

-- An oracle whose real draw is always 1.  It is admissible: when `evolve`
-- requests a draw from the empty range `[0.0, 0.0)` (total fitness zero),
-- no in-range value exists at all — the `rand` crate's `gen_range` asserts
-- `lo < hi` and aborts there.
def oneOracle : Oracle Nat Unit where
  genRangeQ := fun _ _ _ => (1, ())
  genRangeN := fun _ _ _ => (0, ())
  generate := fun _ => (0, ())
  mutate := fun g _ => (g, ())
  cross := fun a _ _ => (a, ())

-- A population of four individuals whose fitness values are all zero.
def zeroPool : Pool Nat :=
  { genes := [(0, 0), (1, 0), (2, 0), (3, 0)], back_genes := []
    fitness := fun _ => 0 }

-- The reference function `f(a, b) = a + b` of the spec scenarios.
def addRef : Int → Int → Int := fun a b => a + b

-- Two 11-item programs agreeing on their first 10 items.
def gLong1 : ProgramGene :=
  ⟨[.D 0, .D 0, .D 0, .D 0, .D 0, .D 0, .D 0, .D 0, .D 0, .D 0, .D 1]⟩

def gLong2 : ProgramGene :=
  ⟨[.D 0, .D 0, .D 0, .D 0, .D 0, .D 0, .D 0, .D 0, .D 0, .D 0, .C .Swap]⟩

-- The program whose third step divides `i32::MIN` by `-1`.
def progDivOverflow : List Prog := [.D intMin, .D (-1), .C .Div]

-- A data stack on which a single `Div` divides `i32::MIN` by `-1`.
def stackDivMin : Stack := { data := [-1, intMin], commands := [] }

/-! ### Basic interpreter lemmas -/

-- `Stack::run` never touches the command queue.
theorem run_commands (s : Stack) (c : Command) (r : Stack)
    (h : s.run c = some r) : r.commands = s.commands := by
  obtain ⟨d, cs⟩ := s
  cases c <;> rcases d with _ | ⟨b, _ | ⟨a, rest⟩⟩ <;>
    simp only [Stack.run, Stack.pop, Stack.push] at h <;>
    (try split at h) <;> (try split at h) <;> simp_all <;> (cases h; rfl)

-- `Stack::run` reads and writes only the data stack: its effect is the same
-- function of the data for any command queue.
theorem run_data_eq (c : Command) (d : List Int) (cs cs' : List Prog) :
    Stack.run { data := d, commands := cs } c =
      (Stack.run { data := d, commands := cs' } c).map
        (fun s => { data := s.data, commands := cs }) := by
  cases c <;> rcases d with _ | ⟨b, _ | ⟨a, rest⟩⟩ <;>
    simp only [Stack.run, Stack.pop, Stack.push] <;>
    (try split) <;> (try split) <;> simp

-- One step of `run_next` consumes exactly the head of the command queue.
theorem runNext_commands (s : Stack) (p : Prog) (rest : List Prog)
    (h : s.commands = p :: rest) (s1 : Stack) (h2 : s.runNext = some s1) :
    s1.commands = rest := by
  unfold Stack.runNext at h2
  rw [h] at h2
  cases p with
  | D d => simp only [Stack.push] at h2; cases h2; rfl
  | C c => exact (run_commands _ _ _ h2).trans rfl

-- `queue_program` prepends the program, in order, to the command queue.
theorem queueProgram_commands (s : Stack) (program : List Prog) :
    (s.queueProgram program).commands = program ++ s.commands := by
  unfold Stack.queueProgram
  induction program with
  | nil => rfl
  | cons p ps ih =>
    simp only [List.reverse_cons, List.foldl_append, List.foldl_cons,
      List.foldl_nil] at *
    simp [ih]

-- Unfolding `run_next` on a queued literal and on a queued command.
theorem runNext_consD (d : List Int) (v : Int) (rest : List Prog) :
    Stack.runNext { data := d, commands := .D v :: rest } =
      some { data := v :: d, commands := rest } := rfl

theorem runNext_consC (d : List Int) (c : Command) (rest : List Prog) :
    Stack.runNext { data := d, commands := .C c :: rest } =
      Stack.run { data := d, commands := rest } c := rfl

-- Unfolding `run_until` by one step on a non-empty queue.
theorem runUntil_cons (d : List Int) (p : Prog) (rest : List Prog) (m : Nat) :
    Stack.runUntil { data := d, commands := p :: rest } (m + 1) =
      match Stack.runNext { data := d, commands := p :: rest } with
      | none => none
      | some s1 => (s1.runUntil m).map fun q => (q.1 + 1, q.2) := rfl

-- An empty queue makes `run_until` a no-op for any step budget.
theorem runUntil_nil (s : Stack) (h : s.commands = []) (max : Nat) :
    s.runUntil max = some (0, s) := by
  obtain ⟨d, cs⟩ := s
  simp only at h
  subst h
  cases max <;> rfl

-- `run_all` on a non-empty queue is one `run_next` step followed by
-- `run_all` of the rest.
theorem runAll_cons (d : List Int) (p : Prog) (rest : List Prog) :
    Stack.runAll { data := d, commands := p :: rest } =
      match Stack.runNext { data := d, commands := p :: rest } with
      | none => none
      | some s1 => (s1.runAll).map fun q => (q.1 + 1, q.2) := by
  unfold Stack.runAll
  rw [show ({ data := d, commands := p :: rest } : Stack).commands.length
      = rest.length + 1 from rfl]
  rw [runUntil_cons]
  cases hn : Stack.runNext { data := d, commands := p :: rest } with
  | none => rfl
  | some s1 =>
    have h1 : s1.commands = rest := runNext_commands _ p rest rfl s1 hn
    simp only [h1]

-- Step accounting for `run_until`: at most `max` steps are taken, each step
-- consumes one queued item, and stopping short of `max` means the queue is
-- empty.
theorem runUntil_steps (s : Stack) (max : Nat) (j : Nat) (s' : Stack)
    (h : s.runUntil max = some (j, s')) :
    j ≤ max ∧ s'.commands.length = s.commands.length - j ∧
      (j = max ∨ s'.commands = []) := by
  induction max generalizing s j with
  | zero =>
    unfold Stack.runUntil at h
    cases h
    simp
  | succ m ih =>
    obtain ⟨d, cs⟩ := s
    cases cs with
    | nil =>
      rw [runUntil_nil _ rfl] at h
      cases h
      simp
    | cons p rest =>
      rw [runUntil_cons] at h
      cases hn : Stack.runNext { data := d, commands := p :: rest } with
      | none => rw [hn] at h; cases h
      | some s1 =>
        rw [hn] at h
        simp only [] at h
        rw [Option.map_eq_some'] at h
        obtain ⟨q, hu, hq⟩ := h
        cases hq
        have h1 : s1.commands = rest := runNext_commands _ p rest rfl s1 hn
        obtain ⟨hle, hlen, hdisj⟩ := ih s1 q.1 hu
        rw [h1] at hlen
        refine ⟨by omega, ?_, ?_⟩
        · simp only [List.length_cons]
          omega
        · rcases hdisj with h | h
          · left; omega
          · right; exact h

-- Splitting execution never changes the final stack: running at most `k`
-- steps and then running to completion reaches the same final stack as
-- running to completion in one go.
theorem runUntil_then_runAll (k : Nat) (s : Stack) :
    ((s.runUntil k).bind fun p => p.2.runAll).map (fun p => p.2) =
      (s.runAll).map (fun p => p.2) := by
  induction k generalizing s with
  | zero =>
    unfold Stack.runUntil
    simp
  | succ k ih =>
    obtain ⟨d, cs⟩ := s
    cases cs with
    | nil =>
      have h0 : Stack.runAll { data := d, commands := [] }
          = some (0, { data := d, commands := [] }) := rfl
      rw [runUntil_nil _ rfl, h0]
      simp [h0]
    | cons p rest =>
      rw [runUntil_cons, runAll_cons]
      cases hn : Stack.runNext { data := d, commands := p :: rest } with
      | none => rfl
      | some s1 =>
        show (((s1.runUntil k).map (fun q => (q.1 + 1, q.2))).bind
            (fun p => p.2.runAll)).map (fun p => p.2) =
          ((s1.runAll).map (fun q => (q.1 + 1, q.2))).map (fun p => p.2)
        have this := ih s1
        cases hu : s1.runUntil k <;> rw [hu] at this <;>
          cases hv : s1.runAll <;> rw [hv] at this <;> simp_all

-- Execution of `run_until` depends only on the first `max` queued items:
-- with the same data stack and the same first `max` items (both queues at
-- least that long), the step counts and final data stacks agree.
theorem runUntil_take (max : Nat) (d : List Int) (c1 c2 : List Prog)
    (htake : c1.take max = c2.take max)
    (hl1 : max ≤ c1.length) (hl2 : max ≤ c2.length) :
    (Stack.runUntil { data := d, commands := c1 } max).map
        (fun p => (p.1, p.2.data)) =
      (Stack.runUntil { data := d, commands := c2 } max).map
        (fun p => (p.1, p.2.data)) := by
  induction max generalizing d c1 c2 with
  | zero => unfold Stack.runUntil; rfl
  | succ m ih =>
    cases c1 with
    | nil => simp at hl1
    | cons p r1 =>
      cases c2 with
      | nil => simp at hl2
      | cons q r2 =>
        simp only [List.take_succ_cons, List.cons.injEq] at htake
        obtain ⟨hpq, htk⟩ := htake
        subst hpq
        simp only [List.length_cons, Nat.add_le_add_iff_right] at hl1 hl2
        rw [runUntil_cons, runUntil_cons]
        cases p with
        | D v =>
          rw [runNext_consD, runNext_consD]
          show ((Stack.runUntil { data := v :: d, commands := r1 } m).map
              (fun q => (q.1 + 1, q.2))).map (fun p => (p.1, p.2.data)) =
            ((Stack.runUntil { data := v :: d, commands := r2 } m).map
              (fun q => (q.1 + 1, q.2))).map (fun p => (p.1, p.2.data))
          have this := ih (v :: d) r1 r2 htk hl1 hl2
          cases h1 : Stack.runUntil { data := v :: d, commands := r1 } m <;>
            cases h2 : Stack.runUntil { data := v :: d, commands := r2 } m <;>
              rw [h1, h2] at this <;> simp_all
        | C c =>
          rw [runNext_consC, runNext_consC, run_data_eq c d r1 r2]
          cases hr : Stack.run { data := d, commands := r2 } c with
          | none => rfl
          | some s2 =>
            obtain ⟨d2, cs2⟩ := s2
            have hc2 : cs2 = r2 := run_commands _ _ _ hr
            subst hc2
            show ((Stack.runUntil { data := d2, commands := r1 } m).map
                (fun q => (q.1 + 1, q.2))).map (fun p => (p.1, p.2.data)) =
              ((Stack.runUntil { data := d2, commands := cs2 } m).map
                (fun q => (q.1 + 1, q.2))).map (fun p => (p.1, p.2.data))
            have this := ih d2 r1 cs2 htk hl1 hl2
            cases h1 : Stack.runUntil { data := d2, commands := r1 } m <;>
              cases h2 : Stack.runUntil { data := d2, commands := cs2 } m <;>
                rw [h1, h2] at this <;> simp_all

/-! ### Lemmas about the evolution loops -/

-- Exit accounting for the selection loop: elements are conserved between
-- the new genes and the back buffer, at most `k` are moved, stopping short
-- of `k` means the back buffer is exhausted, and every output pair comes
-- from one of the two input buffers.
theorem selectLoop_spec (o : Oracle G R) (wfuel k : Nat)
    (genes back : List (G × Rat)) (total : Rat) (rng : R)
    (g' b' : List (G × Rat)) (t' : Rat) (r' : R)
    (h : selectLoop o wfuel k genes back total rng = some (g', b', t', r')) :
    g'.length + b'.length = genes.length + back.length ∧
      g'.length ≤ genes.length + k ∧
      (g'.length = genes.length + k ∨ b' = []) ∧
      (∀ pr ∈ g', pr ∈ genes ∨ pr ∈ back) ∧ (∀ pr ∈ b', pr ∈ back) := by
  induction k generalizing genes back total rng with
  | zero =>
    unfold selectLoop at h
    simp only [Option.some.injEq, Prod.mk.injEq] at h
    obtain ⟨h1, h2, _, _⟩ := h
    subst h1; subst h2
    exact ⟨rfl, by omega, Or.inl (by omega),
      fun pr hpr => Or.inl hpr, fun pr hpr => hpr⟩
  | succ k ih =>
    unfold selectLoop at h
    by_cases hb : back.isEmpty
    · rw [if_pos hb] at h
      simp only [Option.some.injEq, Prod.mk.injEq] at h
      obtain ⟨h1, h2, _, _⟩ := h
      subst h1; subst h2
      exact ⟨rfl, by omega, Or.inr (List.isEmpty_iff.mp hb),
        fun pr hpr => Or.inl hpr, fun pr hpr => hpr⟩
    · rw [if_neg hb] at h
      dsimp only at h
      cases hw : rouletteWalk back
          ((o.genRangeQ 0 total rng).1 - fitAt back 0) 0 wfuel with
      | none => rw [hw] at h; cases h
      | some i =>
        rw [hw] at h
        dsimp only at h
        cases hg : back.get? i with
        | none => rw [hg] at h; cases h
        | some pr =>
          rw [hg] at h
          have h' : selectLoop o wfuel k (genes ++ [pr]) (back.eraseIdx i)
              (total - pr.2) (o.genRangeQ 0 total rng).2 =
                some (g', b', t', r') := h
          obtain ⟨hi, _⟩ := List.get?_eq_some.mp hg
          have hmem : pr ∈ back := List.get?_mem hg
          obtain ⟨c1, c2, c3, c4, c5⟩ := ih _ _ _ _ h'
          have hlen : (back.eraseIdx i).length = back.length - 1 := by
            rw [List.length_eraseIdx]
            simp [hi]
          rw [List.length_append, List.length_singleton] at c1 c2 c3
          rw [hlen] at c1
          refine ⟨by omega, by omega, ?_, ?_, ?_⟩
          · rcases c3 with c3 | c3
            · left; omega
            · right; exact c3
          · intro q hq
            rcases c4 q hq with hm | hm
            · rcases List.mem_append.mp hm with hm | hm
              · exact Or.inl hm
              · right
                rw [List.mem_singleton.mp hm]
                exact hmem
            · exact Or.inr (List.eraseIdx_subset _ _ hm)
          · intro q hq
            exact List.eraseIdx_subset _ _ (c5 q hq)

-- Selection always fills exactly one quarter: starting from an empty new
-- population and a full back buffer, a completed selection loop has selected
-- exactly `len / 4` individuals (the back buffer can never run dry first).
theorem selectLoop_quarter (o : Oracle G R) (wfuel : Nat)
    (back : List (G × Rat)) (total : Rat) (rng : R)
    (g' b' : List (G × Rat)) (t' : Rat) (r' : R)
    (h : selectLoop o wfuel (back.length / 4) [] back total rng =
      some (g', b', t', r')) :
    g'.length = back.length / 4 := by
  obtain ⟨c1, c2, c3, _, _⟩ := selectLoop_spec o wfuel _ [] back total rng
    g' b' t' r' h
  simp only [List.length_nil, Nat.zero_add] at c1 c2 c3
  rcases c3 with c3 | c3
  · exact c3
  · rw [c3, List.length_nil] at c1
    rcases Nat.eq_zero_or_pos back.length with hz | hpos
    · omega
    · have := Nat.div_lt_self hpos (by omega : 1 < 4)
      omega

-- Every pair appended by the crossover loop carries a freshly computed
-- fitness, and exactly `k` pairs are appended.
theorem crossLoop_spec (o : Oracle G R) (F : G → Rat) (q : Nat) (i k : Nat)
    (genes : List (G × Rat)) (rng : R) (g' : List (G × Rat)) (r' : R)
    (h : crossLoop o F q i k genes rng = some (g', r')) :
    g'.length = genes.length + k ∧
      ∀ pr ∈ g', pr ∈ genes ∨ pr.2 = F pr.1 := by
  induction k generalizing i genes rng with
  | zero =>
    unfold crossLoop at h
    simp only [Option.some.injEq, Prod.mk.injEq] at h
    obtain ⟨h1, _⟩ := h
    subst h1
    exact ⟨by omega, fun pr hpr => Or.inl hpr⟩
  | succ k ih =>
    unfold crossLoop at h
    dsimp only at h
    cases hgi : genes.get? i with
    | none => rw [hgi] at h; cases h
    | some gi =>
      rw [hgi] at h
      cases hgw : genes.get? (o.genRangeN 0 q rng).1 with
      | none => rw [hgw] at h; cases h
      | some gw =>
        rw [hgw] at h
        have h' : crossLoop o F q (i + 1) k
            (genes ++ [((o.cross gi.1 gw.1 (o.genRangeN 0 q rng).2).1,
              F (o.cross gi.1 gw.1 (o.genRangeN 0 q rng).2).1)])
            (o.cross gi.1 gw.1 (o.genRangeN 0 q rng).2).2 =
              some (g', r') := h
        obtain ⟨c1, c2⟩ := ih _ _ _ h'
        rw [List.length_append, List.length_singleton] at c1
        refine ⟨by omega, ?_⟩
        intro pr hpr
        rcases c2 pr hpr with hm | hf
        · rcases List.mem_append.mp hm with hm | hm
          · exact Or.inl hm
          · right
            rw [List.mem_singleton.mp hm]
        · exact Or.inr hf

-- Same accounting for the mutation loop.
theorem mutLoop_spec (o : Oracle G R) (F : G → Rat) (i k : Nat)
    (genes : List (G × Rat)) (rng : R) (g' : List (G × Rat)) (r' : R)
    (h : mutLoop o F i k genes rng = some (g', r')) :
    g'.length = genes.length + k ∧
      ∀ pr ∈ g', pr ∈ genes ∨ pr.2 = F pr.1 := by
  induction k generalizing i genes rng with
  | zero =>
    unfold mutLoop at h
    simp only [Option.some.injEq, Prod.mk.injEq] at h
    obtain ⟨h1, _⟩ := h
    subst h1
    exact ⟨by omega, fun pr hpr => Or.inl hpr⟩
  | succ k ih =>
    unfold mutLoop at h
    dsimp only at h
    cases hgi : genes.get? i with
    | none => rw [hgi] at h; cases h
    | some gi =>
      rw [hgi] at h
      have h' : mutLoop o F (i + 1) k
          (genes ++ [((o.mutate gi.1 rng).1, F (o.mutate gi.1 rng).1)])
          (o.mutate gi.1 rng).2 = some (g', r') := h
      obtain ⟨c1, c2⟩ := ih _ _ _ h'
      rw [List.length_append, List.length_singleton] at c1
      refine ⟨by omega, ?_⟩
      intro pr hpr
      rcases c2 pr hpr with hm | hf
      · rcases List.mem_append.mp hm with hm | hm
        · exact Or.inl hm
        · right
          rw [List.mem_singleton.mp hm]
      · exact Or.inr hf

-- Same accounting for the replenishment loop (always total).
theorem replenishLoop_spec (o : Oracle G R) (F : G → Rat) (k : Nat)
    (genes : List (G × Rat)) (rng : R) :
    (replenishLoop o F k genes rng).1.length = genes.length + k ∧
      ∀ pr ∈ (replenishLoop o F k genes rng).1,
        pr ∈ genes ∨ pr.2 = F pr.1 := by
  induction k generalizing genes rng with
  | zero =>
    unfold replenishLoop
    exact ⟨by simp, fun pr hpr => Or.inl hpr⟩
  | succ k ih =>
    unfold replenishLoop
    dsimp only
    obtain ⟨c1, c2⟩ := ih
      (genes ++ [((o.generate rng).1, F (o.generate rng).1)])
      (o.generate rng).2
    rw [List.length_append, List.length_singleton] at c1
    refine ⟨by omega, ?_⟩
    intro pr hpr
    rcases c2 pr hpr with hm | hf
    · rcases List.mem_append.mp hm with hm | hm
      · exact Or.inl hm
      · right
        rw [List.mem_singleton.mp hm]
    · exact Or.inr hf

-- Same accounting for the fill loop of `Pool::new`.
theorem newLoop_spec (o : Oracle G R) (F : G → Rat) (k : Nat)
    (genes : List (G × Rat)) (rng : R) :
    (newLoop o F k genes rng).1.length = genes.length + k ∧
      ∀ pr ∈ (newLoop o F k genes rng).1, pr ∈ genes ∨ pr.2 = F pr.1 := by
  induction k generalizing genes rng with
  | zero =>
    unfold newLoop
    exact ⟨by simp, fun pr hpr => Or.inl hpr⟩
  | succ k ih =>
    unfold newLoop
    dsimp only
    obtain ⟨c1, c2⟩ := ih
      (genes ++ [((o.generate rng).1, F (o.generate rng).1)])
      (o.generate rng).2
    rw [List.length_append, List.length_singleton] at c1
    refine ⟨by omega, ?_⟩
    intro pr hpr
    rcases c2 pr hpr with hm | hf
    · rcases List.mem_append.mp hm with hm | hm
      · exact Or.inl hm
      · right
        rw [List.mem_singleton.mp hm]
    · exact Or.inr hf

-- A completed `evolve` decomposes into its four phases.
theorem evolve_some_parts (o : Oracle G R) (wfuel : Nat) (p : Pool G)
    (rng : R) (p' : Pool G) (r' : R)
    (h : Pool.evolve o wfuel p rng = some (p', r')) :
    ∃ genes1 back1 t1 rng1 genes2 rng2 genes3 rng3,
      selectLoop o wfuel (p.genes.length / 4) [] p.genes
          (p.genes.foldl (fun acc pr => acc + pr.2) 0) rng =
        some (genes1, back1, t1, rng1) ∧
      crossLoop o p.fitness (p.genes.length / 4) 0 genes1.length genes1
          rng1 = some (genes2, rng2) ∧
      mutLoop o p.fitness 0 genes1.length genes2 rng2 =
        some (genes3, rng3) ∧
      p' = { genes := (replenishLoop o p.fitness
                (p.genes.length - genes3.length) genes3 rng3).1,
             back_genes := back1, fitness := p.fitness } ∧
      r' = (replenishLoop o p.fitness (p.genes.length - genes3.length)
              genes3 rng3).2 := by
  unfold Pool.evolve at h
  dsimp only at h
  cases hs : selectLoop o wfuel (p.genes.length / 4) [] p.genes
      (p.genes.foldl (fun acc pr => acc + pr.2) 0) rng with
  | none => rw [hs] at h; cases h
  | some out =>
    obtain ⟨genes1, back1, t1, rng1⟩ := out
    rw [hs] at h
    dsimp only at h
    cases hc : crossLoop o p.fitness (p.genes.length / 4) 0 genes1.length
        genes1 rng1 with
    | none => rw [hc] at h; cases h
    | some out2 =>
      obtain ⟨genes2, rng2⟩ := out2
      rw [hc] at h
      dsimp only at h
      cases hm : mutLoop o p.fitness 0 genes1.length genes2 rng2 with
      | none => rw [hm] at h; cases h
      | some out3 =>
        obtain ⟨genes3, rng3⟩ := out3
        rw [hm] at h
        dsimp only at h
        simp only [Option.some.injEq, Prod.mk.injEq] at h
        obtain ⟨h1, h2⟩ := h
        exact ⟨genes1, back1, t1, rng1, genes2, rng2, genes3, rng3,
          rfl, hc, hm, h1.symm, h2.symm⟩

-- A completed `evolve` preserves the population size.
theorem evolve_length (o : Oracle G R) (wfuel : Nat) (p : Pool G) (rng : R)
    (p' : Pool G) (r' : R) (h : Pool.evolve o wfuel p rng = some (p', r')) :
    p'.genes.length = p.genes.length := by
  obtain ⟨g1, b1, t1, r1, g2, r2, g3, r3, hs, hc, hm, hp, _⟩ :=
    evolve_some_parts o wfuel p rng p' r' h
  have hq : g1.length = p.genes.length / 4 :=
    selectLoop_quarter o wfuel p.genes _ rng g1 b1 t1 r1 hs
  obtain ⟨hc1, _⟩ := crossLoop_spec o p.fitness _ 0 g1.length g1 r1 g2 r2 hc
  obtain ⟨hm1, _⟩ := mutLoop_spec o p.fitness 0 g1.length g2 r2 g3 r3 hm
  obtain ⟨hr1, _⟩ := replenishLoop_spec o p.fitness
    (p.genes.length - g3.length) g3 r3
  have h3 : 3 * (p.genes.length / 4) ≤ p.genes.length := by
    have := Nat.div_mul_le_self p.genes.length 4
    omega
  rw [hp]
  dsimp only
  omega

-- `Pool::new` produces a pool of exactly `size` scored genes whose stored
-- fitness is fresh, carrying the supplied fitness function.
theorem new_spec (size : Nat) (F : G → Rat) (o : Oracle G R) (rng : R) :
    (Pool.new size F o rng).1.fitness = F ∧
      (Pool.new size F o rng).1.genes.length = size ∧
      freshFitness F (Pool.new size F o rng).1.genes := by
  obtain ⟨h1, h2⟩ := newLoop_spec o F size [] rng
  unfold Pool.new
  dsimp only
  refine ⟨rfl, by simpa using h1, ?_⟩
  intro pr hpr
  rcases h2 pr hpr with hm | hf
  · simp at hm
  · exact hf

-- A completed `evolve` keeps the fitness function and the freshness
-- invariant: selected genes keep their (fresh) stored score, and crossed,
-- mutated and generated genes are scored at creation.
theorem evolve_fresh (o : Oracle G R) (wfuel : Nat) (p : Pool G) (rng : R)
    (p' : Pool G) (r' : R) (hf : freshFitness p.fitness p.genes)
    (h : Pool.evolve o wfuel p rng = some (p', r')) :
    p'.fitness = p.fitness ∧ freshFitness p.fitness p'.genes := by
  obtain ⟨g1, b1, t1, r1, g2, r2, g3, r3, hs, hc, hm, hp, _⟩ :=
    evolve_some_parts o wfuel p rng p' r' h
  obtain ⟨_, _, _, s4, _⟩ :=
    selectLoop_spec o wfuel _ [] p.genes _ rng g1 b1 t1 r1 hs
  obtain ⟨_, c2⟩ := crossLoop_spec o p.fitness _ 0 g1.length g1 r1 g2 r2 hc
  obtain ⟨_, m2⟩ := mutLoop_spec o p.fitness 0 g1.length g2 r2 g3 r3 hm
  obtain ⟨_, f2⟩ := replenishLoop_spec o p.fitness
    (p.genes.length - g3.length) g3 r3
  subst hp
  refine ⟨rfl, ?_⟩
  intro pr hpr
  dsimp only at hpr
  rcases f2 pr hpr with hg3 | hfr
  · rcases m2 pr hg3 with hg2 | hfr
    · rcases c2 pr hg2 with hg1 | hfr
      · rcases s4 pr hg1 with hnil | hback
        · simp at hnil
        · exact hf pr hback
      · exact hfr
    · exact hfr
  · exact hfr

/-! ### Further helper lemmas -/

-- `queue_program` as a whole-stack equation.
theorem queueProgram_eq (s : Stack) (program : List Prog) :
    s.queueProgram program =
      { data := s.data, commands := program ++ s.commands } := by
  have h := queueProgram_commands s program
  obtain ⟨d, cs⟩ := s
  exact congrArg (fun l => Stack.mk d l) h

-- The value popped is the head of the data stack, defaulting to 0.
theorem pop_fst (s : Stack) : (s.pop).1 = s.data.headD 0 := by
  obtain ⟨d, cs⟩ := s
  cases d <;> rfl

-- When every remaining fitness is zero and the drawn value is positive, the
-- roulette walk subtracts zero forever: it stops within no fuel bound at
-- all, i.e. the source loop diverges.
theorem rouletteWalk_zero_diverges (back : List (G × Rat))
    (hz : ∀ j, fitAt back j = 0) (f : Rat) (hf : 0 < f) (i fuel : Nat) :
    rouletteWalk back f i fuel = none := by
  induction fuel generalizing i with
  | zero =>
    unfold rouletteWalk
    rw [if_pos hf]
  | succ fuel ih =>
    unfold rouletteWalk
    rw [if_pos hf]
    dsimp only
    rw [hz, sub_zero]
    exact ih _

-- A selection step over an all-zero back buffer with a positive draw never
-- finishes.
theorem selectLoop_zero_none (o : Oracle G R) (wfuel k : Nat)
    (genes back : List (G × Rat)) (total : Rat) (rng : R)
    (hb : back.isEmpty = false) (hz : ∀ j, fitAt back j = 0)
    (hpos : 0 < (o.genRangeQ 0 total rng).1) :
    selectLoop o wfuel (k + 1) genes back total rng = none := by
  unfold selectLoop
  rw [hb]
  dsimp only
  rw [hz 0, sub_zero]
  rw [rouletteWalk_zero_diverges back hz _ hpos 0 wfuel]
  rfl

-- The crossover loop refines the spec's description of the crossover phase:
-- when the partner draws stay in `[0, q)` (the random capability's contract)
-- and the selected slice has exactly quarter length, reading parents out of
-- the growing genes vector is the same as reading them out of the selected
-- slice, and the loop appends exactly the spec's children.
theorem crossLoop_eq_spec (o : Oracle G R)
    (hInt : ∀ lo hi r, lo < hi →
      lo ≤ (o.genRangeN lo hi r).1 ∧ (o.genRangeN lo hi r).1 < hi)
    (F : G → Rat) (q : Nat) (sel : List (G × Rat)) (hsel : sel.length = q) :
    ∀ (k i : Nat) (acc : List (G × Rat)) (rng : R), i + k = q →
      ∃ children r2,
        crossPhaseSpec o F q sel i k rng = some (children, r2) ∧
        crossLoop o F q i k (sel ++ acc) rng =
          some (sel ++ acc ++ children, r2) := by
  intro k
  induction k with
  | zero =>
    intro i acc rng hik
    exact ⟨[], rng, rfl, by simp [crossLoop]⟩
  | succ k ih =>
    intro i acc rng hik
    have hiq : i < sel.length := by omega
    have h0q : 0 < q := by omega
    obtain ⟨_, hwq⟩ := hInt 0 q rng h0q
    cases hgi : sel.get? i with
    | none =>
      rw [List.get?_eq_none] at hgi
      omega
    | some gi =>
      cases hgw : sel.get? (o.genRangeN 0 q rng).1 with
      | none =>
        rw [List.get?_eq_none] at hgw
        omega
      | some gw =>
        obtain ⟨children, r2, hspec, hloop⟩ :=
          ih (i + 1) (acc ++ [((o.cross gi.1 gw.1 (o.genRangeN 0 q rng).2).1,
            F (o.cross gi.1 gw.1 (o.genRangeN 0 q rng).2).1)])
            (o.cross gi.1 gw.1 (o.genRangeN 0 q rng).2).2 (by omega)
        refine ⟨((o.cross gi.1 gw.1 (o.genRangeN 0 q rng).2).1,
            F (o.cross gi.1 gw.1 (o.genRangeN 0 q rng).2).1) :: children,
          r2, ?_, ?_⟩
        · unfold crossPhaseSpec
          dsimp only
          rw [hgi, hgw]
          dsimp only
          rw [hspec]
        · unfold crossLoop
          dsimp only
          rw [List.get?_append hiq, hgi,
            List.get?_append (by omega : (o.genRangeN 0 q rng).1 < sel.length),
            hgw]
          dsimp only
          rw [List.append_assoc sel acc]
          rw [hloop]
          simp [List.append_assoc]

-- The trial-accumulation fold of `fitness` counts one total per grid input
-- and one success per correct trial.
theorem foldTrials_spec (f : Int → Int → Int) (g : ProgramGene) :
    ∀ (l : List (Int × Int)) (acc out : Nat × Nat),
      l.foldlM (fun (acc : Nat × Nat) ab =>
        (fitnessTrial f g ab).map fun ok =>
          (acc.1 + 1, acc.2 + if ok then 1 else 0)) acc = some out →
      out.1 = acc.1 + l.length ∧
        out.2 = acc.2 +
          (l.filter fun ab => fitnessTrial f g ab == some true).length := by
  intro l
  induction l with
  | nil =>
    intro acc out h
    simp only [List.foldlM_nil] at h
    cases h
    simp
  | cons ab l ih =>
    intro acc out h
    rw [List.foldlM_cons] at h
    cases ht : fitnessTrial f g ab with
    | none => rw [ht] at h; simp at h
    | some ok =>
      rw [ht] at h
      have h' : l.foldlM (fun (acc : Nat × Nat) ab =>
          (fitnessTrial f g ab).map fun ok =>
            (acc.1 + 1, acc.2 + if ok then 1 else 0))
          (acc.1 + 1, acc.2 + if ok then 1 else 0) = some out := h
      obtain ⟨h1, h2⟩ := ih _ _ h'
      simp only [List.length_cons, List.filter_cons, ht]
      cases ok with
      | true =>
        have hbeq : (some true == some true) = true := by decide
        simp only [hbeq, if_true, List.length_cons]
        simp at h1 h2
        exact ⟨by omega, by omega⟩
      | false =>
        have hbeq : (some false == some true) = false := by decide
        simp only [hbeq, Bool.false_eq_true, if_false]
        simp at h1 h2
        exact ⟨by omega, by omega⟩

-- `fitness`'s trials depend only on the first 10 program items.
theorem fitnessTrial_take (f : Int → Int → Int) (g1 g2 : ProgramGene)
    (h1 : 10 ≤ g1.progs.length) (h2 : 10 ≤ g2.progs.length)
    (ht : g1.progs.take 10 = g2.progs.take 10) (ab : Int × Int) :
    fitnessTrial f g1 ab = fitnessTrial f g2 ab := by
  unfold fitnessTrial
  dsimp only
  rw [queueProgram_eq, queueProgram_eq]
  dsimp only [Stack.push, Stack.new]
  simp only [List.append_nil]
  have key := runUntil_take 10 [ab.2, ab.1] g1.progs g2.progs ht h1 h2
  cases ha : Stack.runUntil { data := [ab.2, ab.1], commands := g1.progs }
      10 <;>
    cases hb : Stack.runUntil { data := [ab.2, ab.1], commands := g2.progs }
        10 <;>
      rw [ha, hb] at key <;> simp_all [pop_fst]

-- `fitness` itself depends only on the first 10 items and the length.
theorem fitness_take (f : Int → Int → Int) (g1 g2 : ProgramGene)
    (h1 : 10 ≤ g1.progs.length) (h2 : 10 ≤ g2.progs.length)
    (ht : g1.progs.take 10 = g2.progs.take 10)
    (hl : g1.progs.length = g2.progs.length) :
    fitness f g1 = fitness f g2 := by
  have htr : fitnessTrial f g1 = fitnessTrial f g2 := by
    funext ab
    exact fitnessTrial_take f g1 g2 h1 h2 ht ab
  unfold fitness
  rw [htr, hl]

/-! ## The claims -/

/-- C1: in `evolve`'s crossover phase, for each of the `num_selected`
selected individuals the partner index is drawn by `gen_range(0, len/4)` —
uniformly over the first quarter-sized slice of the selected genes — the
pair is crossed, the child's fitness is evaluated, and the child is
appended: the loop returns `sel ++ children` with the children exactly as
`crossPhaseSpec` (the spec's wording) produces them.  This covers every
pool and every outcome of selection, because a completed selection always
has `num_selected = len/4` exactly — the back buffer can never run dry
first, so a smaller `num_selected` cannot arise. -/
theorem c1_crossover_phase {G R : Type} (o : Oracle G R)
    (hInt : ∀ lo hi r, lo < hi →
      lo ≤ (o.genRangeN lo hi r).1 ∧ (o.genRangeN lo hi r).1 < hi)
    (F : G → Rat) (wfuel : Nat) (back : List (G × Rat)) (total : Rat)
    (rng : R) (sel back' : List (G × Rat)) (t' : Rat) (r1 : R)
    (hrun : selectLoop o wfuel (back.length / 4) [] back total rng =
      some (sel, back', t', r1)) :
    sel.length = back.length / 4 ∧
      ∃ children r2,
        crossPhaseSpec o F (back.length / 4) sel 0 sel.length r1 =
          some (children, r2) ∧
        crossLoop o F (back.length / 4) 0 sel.length sel r1 =
          some (sel ++ children, r2) := by
  have hq : sel.length = back.length / 4 :=
    selectLoop_quarter o wfuel back total rng sel back' t' r1 hrun
  refine ⟨hq, ?_⟩
  obtain ⟨children, r2, hspec, hloop⟩ :=
    crossLoop_eq_spec o hInt F (back.length / 4) sel hq sel.length 0 [] r1
      (by omega)
  refine ⟨children, r2, hspec, ?_⟩
  simpa using hloop

theorem c1_crossover_phase_witness :
    ([((1 : Nat), (1 : Rat))].length = back4.length / 4) ∧
      ∃ children r2,
        crossPhaseSpec o1 F1 (back4.length / 4) [(1, 1)] 0
          [((1 : Nat), (1 : Rat))].length () = some (children, r2) ∧
        crossLoop o1 F1 (back4.length / 4) 0 [((1 : Nat), (1 : Rat))].length
          [(1, 1)] () = some ([(1, 1)] ++ children, r2) :=
  c1_crossover_phase o1 (fun lo _ _ h => ⟨le_refl lo, h⟩) F1 4 back4 4 ()
    [(1, 1)] [(2, 1), (3, 1), (4, 1)] 3 ()
    (by norm_num [selectLoop, rouletteWalk, fitAt, o1, back4])

/-- C2: the claim is right about the intent and the code is wrong
(code_bug).  With a four-individual population whose fitness values are all
zero, `evolve` never completes a generation: `total_fitness` is 0, so the
selection draw is requested from the empty range `[0.0, 0.0)` — the rand
capability's `gen_range` asserts `lo < hi` and aborts — and for any
positive draw (here `oneOracle` draws 1) the roulette walk
`while f > 0 { f -= 0 }` never stops, under every fuel bound.  The
"back-buffer exhausted" early stop can never fire (`selectLoop_quarter`):
the buffer starts with `len` items and selection removes at most `len/4`. -/
theorem c2_zero_fitness_stalls :
    ∀ wfuel : Nat, Pool.evolve oneOracle wfuel zeroPool () = none := by
  intro wfuel
  have hnone : selectLoop oneOracle wfuel (zeroPool.genes.length / 4) []
      zeroPool.genes (zeroPool.genes.foldl (fun acc pr => acc + pr.2) 0) ()
        = none := by
    have h41 : zeroPool.genes.length / 4 = 0 + 1 := rfl
    rw [h41]
    apply selectLoop_zero_none
    · rfl
    · intro j
      rcases j with _ | _ | _ | _ | j <;> rfl
    · norm_num [oneOracle]
  unfold Pool.evolve
  dsimp only
  rw [hnone]

/-- C3: for every pool size N ≥ 1 the population holds exactly N
gene–fitness pairs after `new`, and every completed `evolve` call
preserves this: the number of pairs after equals the number before. -/
theorem c3_pool_size_invariant {G R : Type} :
    (∀ (size : Nat) (F : G → Rat) (o : Oracle G R) (rng : R), 1 ≤ size →
      (Pool.new size F o rng).1.genes.length = size) ∧
    (∀ (o : Oracle G R) (wfuel : Nat) (p : Pool G) (rng : R) (p' : Pool G)
        (r' : R), 1 ≤ p.genes.length →
      Pool.evolve o wfuel p rng = some (p', r') →
      p'.genes.length = p.genes.length) := by
  constructor
  · intro size F o rng _
    exact (new_spec size F o rng).2.1
  · intro o wfuel p rng p' r' _ h
    exact evolve_length o wfuel p rng p' r' h

theorem c3_pool_size_invariant_witness :
    (Pool.new 3 F1 o1 ()).1.genes.length = 3 ∧
      pool1Next.genes.length = pool1.genes.length := by
  constructor
  · exact c3_pool_size_invariant.1 3 F1 o1 () (by omega)
  · exact c3_pool_size_invariant.2 o1 4 pool1 () pool1Next ()
      (by norm_num [pool1, back4])
      (by norm_num [Pool.evolve, selectLoop, rouletteWalk, fitAt, crossLoop,
        mutLoop, replenishLoop, o1, back4, pool1, pool1Next, F1])

/-- C4: the claim is right about the intent and the code is wrong
(code_bug).  Execution is not trap-free over all 32-bit literals: the
program `[i32::MIN, -1, Div]` faults, because Rust checks division
overflow in every build profile and `i32::MIN / -1` overflows `i32`; the
code only defends against a zero divisor.  (In debug profiles `+`, `-`,
`*` overflow would equally panic; release wraps, as modelled by
`wrap32`.) -/
theorem c4_div_overflow_faults :
    (Stack.new.queueProgram progDivOverflow).runAll = none := by decide

/-- C5: for any program P, any initial data stack and any split point
k ≤ len(P), loading P and running `run_until(k)` followed by `run_all()`
produces the same final data stack as `run_all()` alone on a fresh load of
P from the same initial data stack — splitting never changes the outcome
(the two runs fault together as well). -/
theorem c5_split_execution (P : List Prog) (d : List Int) (k : Nat)
    (hk : k ≤ P.length) :
    (((Stack.queueProgram { data := d, commands := [] } P).runUntil k).bind
        (fun p => p.2.runAll)).map (fun p => p.2.data) =
      ((Stack.queueProgram { data := d, commands := [] } P).runAll).map
        (fun p => p.2.data) := by
  have h := runUntil_then_runAll k
    (Stack.queueProgram { data := d, commands := [] } P)
  cases hx : ((Stack.queueProgram { data := d, commands := [] }
      P).runUntil k).bind (fun p => p.2.runAll) <;>
    cases hy : (Stack.queueProgram { data := d, commands := [] } P).runAll <;>
      rw [hx, hy] at h <;> simp_all

theorem c5_split_execution_witness :
    (((Stack.queueProgram { data := [], commands := [] }
        [.D 10, .D 2, .C .Div, .C .Dup]).runUntil 2).bind
          (fun p => p.2.runAll)).map (fun p => p.2.data) =
      ((Stack.queueProgram { data := [], commands := [] }
        [.D 10, .D 2, .C .Div, .C .Dup]).runAll).map (fun p => p.2.data) :=
  c5_split_execution [.D 10, .D 2, .C .Div, .C .Dup] [] 2 (by decide)

/-- C6: with the pure fitness function the pool was constructed with, every
individual's stored fitness equals the fitness function recomputed on its
gene, immediately after `new` and immediately after every completed
`evolve` (which also keeps the constructed fitness function). -/
theorem c6_fitness_fresh {G R : Type} :
    (∀ (size : Nat) (F : G → Rat) (o : Oracle G R) (rng : R),
      freshFitness F (Pool.new size F o rng).1.genes) ∧
    (∀ (o : Oracle G R) (wfuel : Nat) (p : Pool G) (rng : R) (p' : Pool G)
        (r' : R), freshFitness p.fitness p.genes →
      Pool.evolve o wfuel p rng = some (p', r') →
      p'.fitness = p.fitness ∧ freshFitness p.fitness p'.genes) :=
  ⟨fun size F o rng => (new_spec size F o rng).2.2,
    fun o wfuel p rng p' r' hf h => evolve_fresh o wfuel p rng p' r' hf h⟩

theorem c6_fitness_fresh_witness :
    freshFitness F1 (Pool.new 2 F1 o1 ()).1.genes ∧
      (pool1Next.fitness = pool1.fitness ∧
        freshFitness pool1.fitness pool1Next.genes) :=
  ⟨c6_fitness_fresh.1 2 F1 o1 (),
    c6_fitness_fresh.2 o1 4 pool1 () pool1Next ()
      (by simp [freshFitness, pool1, back4, F1])
      (by norm_num [Pool.evolve, selectLoop, rouletteWalk, fitAt, crossLoop,
        mutLoop, replenishLoop, o1, back4, pool1, pool1Next, F1])⟩

/-- C7 (amended): whenever `run_all` after `queue_program` on a fresh
command queue returns at all, it returns exactly the program length, for
every program and every initial data stack; the only way it fails to
return is the i32 division-overflow fault (see the counterexample). -/
theorem c7_run_all_steps (P : List Prog) (d : List Int) (n : Nat)
    (s' : Stack)
    (h : (Stack.queueProgram { data := d, commands := [] } P).runAll =
      some (n, s')) : n = P.length := by
  rw [queueProgram_eq] at h
  unfold Stack.runAll at h
  simp only [List.append_nil] at h
  obtain ⟨h1, h2, h3⟩ := runUntil_steps _ _ _ _ h
  simp only [] at h1 h2 h3
  rcases h3 with h3 | h3
  · exact h3
  · rw [h3] at h2
    simp at h2
    omega

theorem c7_run_all_steps_witness : (2 : Nat) = [Prog.D 7, Prog.D 8].length :=
  c7_run_all_steps [.D 7, .D 8] [] 2 { data := [8, 7], commands := [] }
    (by decide)

/-- C7 counterexample: the claim as stated is false — a single-`Div`
program run from data stack `[-1, i32::MIN]` does not return step count 1:
`run_all` faults on the division overflow instead of returning. -/
theorem c7_counterexample :
    ((stackDivMin.queueProgram [.C .Div]).runAll).map Prod.fst ≠
      some ([Prog.C .Div].length) := by decide

/-- C8: `pop` on an empty data stack returns 0 (never errors), and a `Div`
whose popped divisor b is 0 pushes 0 rather than faulting, for every value
of the other operand (including a missing one, which pops as 0). -/
theorem c8_defensive_defaults :
    (∀ s : Stack, s.data = [] → (s.pop).1 = 0) ∧
      (∀ (rest : List Int) (cm : List Prog),
        Stack.run { data := 0 :: rest, commands := cm } .Div =
          some { data := 0 :: rest.tail, commands := cm }) := by
  constructor
  · intro s h
    rw [pop_fst, h]
    rfl
  · intro rest cm
    cases rest <;> simp [Stack.run, Stack.pop, Stack.push]

theorem c8_defensive_defaults_witness :
    (Stack.new.pop).1 = 0 ∧
      Stack.run { data := [0, 7], commands := [] } .Div =
        some { data := [0], commands := [] } :=
  ⟨c8_defensive_defaults.1 Stack.new rfl, c8_defensive_defaults.2 [7] []⟩

/-- C9: for every program gene and reference function, the fitness score
equals 0.99 * (correct_count / total_count) + 0.01 * (1 - length/100) over
the 10×10 grid (total_count = 100), and in particular the program `[Add]`
against f(a, b) = a + b scores exactly 0.9999 = 9999/10000. -/
theorem c9_fitness_formula :
    (∀ (f : Int → Int → Int) (g : ProgramGene) (score : Rat),
      fitness f g = some score →
      score = 99 / 100 * ((correctCount f g : Rat) / 100) +
        1 / 100 * (1 - (g.progs.length : Rat) / 100)) ∧
      fitness addRef ⟨[.C .Add]⟩ = some (9999 / 10000) := by
  constructor
  · intro f g score h
    unfold fitness at h
    cases hf : testGrid.foldlM (fun (acc : Nat × Nat) ab =>
        (fitnessTrial f g ab).map fun ok =>
          (acc.1 + 1, acc.2 + if ok then 1 else 0)) (0, 0) with
    | none => rw [hf] at h; cases h
    | some ts =>
      rw [hf] at h
      dsimp only at h
      obtain ⟨h1, h2⟩ := foldTrials_spec f g testGrid (0, 0) ts hf
      simp only [Option.some.injEq] at h
      subst h
      have hts1 : ts.1 = 100 := by rw [h1]; decide
      have hts2 : ts.2 = correctCount f g := by
        rw [h2]
        simp [correctCount]
      rw [hts1, hts2]
      norm_num
  · have hfold : testGrid.foldlM (fun (acc : Nat × Nat) ab =>
        (fitnessTrial addRef ⟨[.C .Add]⟩ ab).map fun ok =>
          (acc.1 + 1, acc.2 + if ok then 1 else 0)) (0, 0) =
            some (100, 100) := by decide
    unfold fitness
    rw [hfold]
    dsimp only
    norm_num

theorem c9_fitness_formula_witness :
    (9999 / 10000 : Rat) =
      99 / 100 * ((correctCount addRef ⟨[.C .Add]⟩ : Rat) / 100) +
        1 / 100 * (1 - ((ProgramGene.mk [.C .Add]).progs.length : Rat) / 100) :=
  c9_fitness_formula.1 addRef ⟨[.C .Add]⟩ (9999 / 10000) c9_fitness_formula.2

/-- C10: each fitness-evaluation trial executes at most 10 steps
(`run_until 10` can never take more), so for programs longer than 10 items
the items after the first 10 are never executed and cannot influence the
score: two programs of equal length agreeing on their first 10 items have
equal fitness for every reference function. -/
theorem c10_step_cap_first10 :
    (∀ (s : Stack) (j : Nat) (s' : Stack),
      s.runUntil 10 = some (j, s') → j ≤ 10) ∧
      (∀ (f : Int → Int → Int) (g1 g2 : ProgramGene),
        10 < g1.progs.length → g1.progs.length = g2.progs.length →
        g1.progs.take 10 = g2.progs.take 10 →
        fitness f g1 = fitness f g2) := by
  constructor
  · intro s j s' h
    exact (runUntil_steps s 10 j s' h).1
  · intro f g1 g2 hlen hl ht
    exact fitness_take f g1 g2 (by omega) (by omega) ht hl

theorem c10_step_cap_first10_witness :
    (0 : Nat) ≤ 10 ∧ fitness addRef gLong1 = fitness addRef gLong2 :=
  ⟨c10_step_cap_first10.1 Stack.new 0 Stack.new rfl,
    c10_step_cap_first10.2 addRef gLong1 gLong2 (by decide) (by decide)
      (by decide)⟩

end GeneCode
